import Mathlib

/-!
Verification of the zkvvm version manager (`src/zkvvm.py`) against its
specification.  Python strings are modelled as `List Char`; the filesystem
cache directory is modelled as the list of names of its regular files;
network and subprocess effects are passed in as explicit parameters.
-/

namespace Zkvvm

/-! ### String primitives (Python `str` operations over `List Char`) -/

/-- Python `str.startswith`: `leadMatch p s` is true when `p` is an initial
segment of `s`. -/
def leadMatch : List Char → List Char → Bool
  | [], _ => true
  | _ :: _, [] => false
  | a :: as, b :: bs => a = b && leadMatch as bs

/-- Python substring containment (`needle in hay`). -/
def sub : List Char → List Char → Bool
  | n, [] => n.isEmpty
  | n, h :: t => leadMatch n (h :: t) || sub n t

/-- Python `str.split(sep)` for a one-character separator.  Always returns a
non-empty list of separator-free segments. -/
def splitOnChar (sep : Char) : List Char → List (List Char)
  | [] => [[]]
  | c :: rest =>
    match splitOnChar sep rest with
    | [] => [[]]
    | r :: rs => if c = sep then [] :: r :: rs else (c :: r) :: rs

/-- Decimal rendering of a natural number, fuel-indexed so that the
recursion is structural (the fuel is always at least the number itself at
call sites, so the fallback branch is unreachable). -/
def natStrCore : Nat → Nat → List Char
  | 0, n => [Nat.digitChar n]
  | fuel + 1, n =>
    if n < 10 then [Nat.digitChar n]
    else natStrCore fuel (n / 10) ++ [Nat.digitChar (n % 10)]

/-- Decimal rendering of a natural number (Python `str(int)`). -/
def natStr (n : Nat) : List Char := natStrCore n n

/-- Decimal value of a digit string (used to model integer parsing). -/
def parseNum (s : List Char) : Nat :=
  s.foldl (fun a c => a * 10 + (c.toNat - 48)) 0

/-- Join a list of segments with a dot (Python `".".join`). -/
def dotJoin : List (List Char) → List Char
  | [] => []
  | [x] => x
  | x :: xs => x ++ '.' :: dotJoin xs

/-! ### The Version data model

Modelled from the spec: the `semantic_version` library's `Version` — an
immutable semantic-version value `major.minor.patch` with an optional
pre-release identifier list and a total order.  (Build metadata is not used
anywhere by the program and is omitted.) -/

structure Version where
  major : Nat
  minor : Nat
  patch : Nat
  pre : List (List Char)
deriving DecidableEq, Repr

/-- Python `str(version)`: `major.minor.patch` followed by `-` and the
dot-joined pre-release identifiers when present. -/
def verChars (v : Version) : List Char :=
  natStr v.major ++ '.' :: natStr v.minor ++ '.' :: natStr v.patch ++
    (match v.pre with
     | [] => []
     | ps => '-' :: dotJoin ps)

/-- A pre-release identifier is numeric when non-empty and all digits. -/
def identIsNum (s : List Char) : Bool :=
  !s.isEmpty && s.all Char.isDigit

/-- ASCII-lexicographic strict order on character lists (Python `str` `<`). -/
def chLT : List Char → List Char → Bool
  | [], [] => false
  | [], _ :: _ => true
  | _ :: _, [] => false
  | a :: as, b :: bs => if a = b then chLT as bs else decide (a < b)

/-- Modelled from the spec: semver pre-release identifier comparison —
numeric identifiers compare numerically and are lower than alphanumeric
ones; alphanumeric identifiers compare in ASCII order. -/
def identLT (a b : List Char) : Bool :=
  if identIsNum a then
    (if identIsNum b then decide (parseNum a < parseNum b) else true)
  else
    (if identIsNum b then false else chLT a b)

/-- Lexicographic comparison of pre-release identifier lists; a strict
prefix compares lower. -/
def preLex : List (List Char) → List (List Char) → Bool
  | [], [] => false
  | [], _ :: _ => true
  | _ :: _, [] => false
  | a :: as, b :: bs => if a = b then preLex as bs else identLT a b

/-- Pre-release comparison at equal core versions: a release (empty list)
is greater than any pre-release. -/
def preLtR (a b : List (List Char)) : Bool :=
  if a = [] then false
  else if b = [] then true
  else preLex a b

/-- Modelled from the spec: the total order on semantic versions used by
the `semantic_version` library. -/
def Version.lt (a b : Version) : Bool :=
  if a.major ≠ b.major then decide (a.major < b.major)
  else if a.minor ≠ b.minor then decide (a.minor < b.minor)
  else if a.patch ≠ b.patch then decide (a.patch < b.patch)
  else preLtR a.pre b.pre

/-- A numeric version component: non-empty, all digits, and no leading
zero (the `semantic_version` library rejects leading zeros). -/
def parseNumeric (s : List Char) : Option Nat :=
  if !s.isEmpty && s.all Char.isDigit && (s.length = 1 || s.headD ' ' ≠ '0')
  then some (parseNum s) else none

/-- Modelled from the spec: the `semantic_version` library's `Version(s)`
constructor on dash-free input (every call site passes a dash-delimited
last segment, which cannot contain a dash); `none` models the `ValueError`
raised on malformed input. -/
def parseVersion (s : List Char) : Option Version :=
  match splitOnChar '.' s with
  | [a, b, c] =>
    match parseNumeric a, parseNumeric b, parseNumeric c with
    | some x, some y, some z => some ⟨x, y, z, []⟩
    | _, _, _ => none
  | _ => none

/-! ### Version resolution (`VersionManager.compile`, lines 91–102) -/

/-- Maximum of a non-empty collection under `Version.lt`. -/
def foldMax (x : Version) (xs : List Version) : Version :=
  xs.foldl (fun acc v => if Version.lt acc v then v else acc) x

/-- Modelled from the spec: `SimpleSpec.select` of the external
`semantic_version` library — among the versions satisfying the constraint,
the maximum, or `none` when nothing matches. -/
def select (C : Version → Bool) (vs : List Version) : Option Version :=
  match vs.filter C with
  | [] => none
  | x :: xs => some (foldMax x xs)

/-- The resolution logic of `VersionManager.compile`: select from the local
versions first and fall back to the remote versions only when no local
version satisfies the constraint. -/
def resolve (C : Version → Bool) (locals remotes : List Version) :
    Option Version :=
  match select C locals with
  | some v => some v
  | none => select C remotes

/-! ### The cache directory and `VersionManager` operations

The cache directory is modelled as the list of names of its regular files
(the filesystem guarantees the names are distinct, which theorems state as
a `Nodup` hypothesis where needed). -/

/-- The cache file name used by `VersionManager.install` (line 134):
`"zkvyper-" + str(version)`. -/
def versionFileName (v : Version) : List Char :=
  "zkvyper-".toList ++ verChars v

/-- Filename-to-version decoding used by `VersionManager.local_versions`
(line 212): `fp.name.split("-")[-1]` fed to the `Version` constructor. -/
def decodeFileName (name : List Char) : Option Version :=
  parseVersion ((splitOnChar '-' name).getLastD [])

/-- `VersionManager.local_versions` (lines 204–213): decode every regular
file of the cache directory; a file whose last dash-segment is not a valid
version makes the whole enumeration raise `ValueError` (`.error`). -/
def local_versions : List (List Char) → Except Unit (List Version)
  | [] => .ok []
  | f :: rest =>
    match decodeFileName f, local_versions rest with
    | some v, .ok vs => .ok (v :: vs)
    | _, _ => .error ()

/-- Effect of `fp.open("wb")` on the set of cache files: the file is
created when absent and truncated (names unchanged) when present. -/
def insertFile (files : List (List Char)) (name : List Char) :
    List (List Char) :=
  if name ∈ files then files else files ++ [name]

inductive InstallError where
  /-- `ValueError` raised by `local_versions` at line 126. -/
  | listingFailed
  /-- exception while reading the response body, re-raised at line 154. -/
  | transferFailed
  /-- non-zero exit status of the verification subprocess (line 165). -/
  | badExec
  /-- expected version string absent from the output (line 171). -/
  | versionMismatch
deriving DecidableEq, Repr

/-- `VersionManager.install` (lines 113–173), modelling the zkVyper binary
path.  The companion vyper toolchain step (lines 119–124) is an external
collaborator (`vvm`) and is outside the model.  External effects are passed
in: `transferOk` says whether reading the response body inside the `try`
block succeeds, and `exitCode`/`out` are the verification subprocess's exit
status and standard output.  The result carries the outcome, the cache
files afterwards, and the number of HTTP transfers opened for the binary
(the `session.get` at line 132). -/
def install (files : List (List Char)) (v : Version) (overwrite : Bool)
    (transferOk : Bool) (exitCode : Nat) (out : List Char) :
    Except InstallError Unit × List (List Char) × Nat :=
  match local_versions files with
  | .error _ => (.error .listingFailed, files, 0)
  | .ok locals =>
    if v ∈ locals ∧ ¬overwrite then
      -- line 126: already present and not overwriting — return immediately
      (.ok (), files, 0)
    else
      -- line 132: session.get(version.location) — one transfer opened
      let fname := versionFileName v
      -- line 135: fp.open("wb") creates (or truncates) the final file
      let files1 := insertFile files fname
      if ¬transferOk then
        -- lines 149–154: close the handle, unlink the file, re-raise
        (.error .transferFailed, files1.erase fname, 1)
      else if exitCode ≠ 0 then
        -- lines 160–165: binary would not execute — unlink and raise
        (.error .badExec, files1.erase fname, 1)
      else if ¬sub (verChars v) out then
        -- lines 166–171: version string missing — unlink and raise
        (.error .versionMismatch, files1.erase fname, 1)
      else
        (.ok (), files1, 1)

/-- `VersionManager.uninstall` (lines 175–184): unlink the file backing
the version's location; a `FileNotFoundError` is caught and only logged.
The boolean records whether the not-found warning was taken; the function
never raises. -/
def uninstall (files : List (List Char)) (target : List Char) :
    List (List Char) × Bool :=
  if target ∈ files then (files.erase target, false) else (files, true)

/-! ### Remote index (`VersionManager.remote_versions`, lines 187–202) -/

/-- One entry of the GitHub directory-listing response, consumed only for
its `type`, `name` and `download_url` fields. -/
structure RemoteEntry where
  ftype : List Char
  name : List Char
  downloadUrl : List Char

/-- Version-string extraction of line 199: `file["name"].split("-")[-1][1:]`
— last dash-segment, then drop exactly one leading character. -/
def extractVerChars (name : List Char) : List Char :=
  ((splitOnChar '-' name).getLastD []).drop 1

/-- The extraction rule as the specification words it: split on `"-"`,
take the last segment, and strip one leading non-digit character. -/
def specExtractVerChars (name : List Char) : List Char :=
  match (splitOnChar '-' name).getLastD [] with
  | [] => []
  | c :: rest => if c.isDigit then c :: rest else rest

/-- `set.add` on versions: identity is the version value alone. -/
def setInsert (vs : List Version) (v : Version) : List Version :=
  if v ∈ vs then vs else vs ++ [v]

/-- `VersionManager.remote_versions` (lines 195–202): keep only entries
whose `type` is `"file"`, decode each name, and collect the versions as a
set; a name whose extracted segment is not a valid version raises
`ValueError` (`.error`). -/
def remote_versions_from (acc : List Version) :
    List RemoteEntry → Except Unit (List Version)
  | [] => .ok acc
  | e :: rest =>
    if e.ftype ≠ "file".toList then remote_versions_from acc rest
    else
      match parseVersion (extractVerChars e.name) with
      | none => .error ()
      | some v => remote_versions_from (setInsert acc v) rest

def remote_versions (entries : List RemoteEntry) :
    Except Unit (List Version) :=
  remote_versions_from [] entries

/-! ### Platform identification (`VersionManager._platform_id`,
lines 230–243) -/

def AMD64 : List (List Char) :=
  ["amd64".toList, "x86_64".toList, "i386".toList, "i586".toList,
   "i686".toList]

def ARM64 : List (List Char) :=
  ["aarch64_be".toList, "aarch64".toList, "armv8b".toList,
   "armv8l".toList]

/-- `VersionManager._platform_id`: `system` is `platform.system()` and
`machine` is `platform.machine().lower()`; `none` models the
`PlatformError` raised when no branch matches.  The third branch repeats
the `_AMD64` test exactly as the source does at line 241. -/
def platform_id (system machine : List Char) : Option (List Char) :=
  if system = "Linux".toList ∧ machine ∈ AMD64 then
    some "linux-amd64".toList
  else if system = "Darwin".toList ∧ machine ∈ AMD64 then
    some "macosx-amd64".toList
  else if system = "Darwin".toList ∧ machine ∈ AMD64 then
    some "macosx-arm64".toList
  else
    none

/-! ### Manager construction (`VersionManager.__init__`, lines 75–83) -/

/-- The filesystem facts `__init__` can read or change: whether the log
file exists, whether its parent directory exists, and whether the cache
directory exists. -/
structure FileSys where
  logFileExists : Bool
  logParentExists : Bool
  cacheDirExists : Bool
deriving DecidableEq, Repr

/-- `VersionManager.__init__` (lines 79–81): when the log file is absent,
`log_file.parent.mkdir(parents=True)` is called, which raises
`FileExistsError` (`.error`) when the parent directory already exists.
No branch touches the cache directory. -/
def managerInit (fs : FileSys) : Except Unit FileSys :=
  if fs.logFileExists then .ok fs
  else if fs.logParentExists then .error ()
  else .ok { fs with logParentExists := true }

/-! ### Configuration (`Config.__init__`, lines 46–59) -/

/-- The keys of `Config.CONVERTERS` (= the keys of `Config.DEFAULTS`). -/
def CONVERTER_KEYS : List (List Char) :=
  ["zk_version".toList, "cache_dir".toList, "log_file".toList,
   "verbosity".toList, "vyper_version".toList]

/-- The environment-variable scan of `Config.__init__` (lines 47–52):
variables whose name starts with `"ZKVVM_"` are lower-cased, stripped of
the six-character prefix and looked up in `CONVERTERS`; an unknown key
raises `KeyError` (`.error key`).  The per-key converted value is kept
abstractly as the raw string (typed conversion is an external concern). -/
def configEnv :
    List (List Char × List Char) →
      Except (List Char) (List (List Char × List Char))
  | [] => .ok []
  | (k, val) :: rest =>
    if leadMatch "ZKVVM_".toList k then
      let key := (k.map Char.toLower).drop 6
      if key ∈ CONVERTER_KEYS then
        match configEnv rest with
        | .ok env => .ok ((key, val) :: env)
        | .error e => .error e
      else .error key
    else configEnv rest

/-! ### Example inputs used by the closed witness theorems -/

def v100 : Version := ⟨1, 0, 0, []⟩
def v110 : Version := ⟨1, 1, 0, []⟩
def v120 : Version := ⟨1, 2, 0, []⟩

/-- The pre-release version `2.0.0-beta.1` of the spec's end-to-end
scenario. -/
def v200b1 : Version := ⟨2, 0, 0, ["beta".toList, "1".toList]⟩

/-- The constraint `">=1.1.0"` as a predicate: at least `1.1.0` and not a
pre-release (a plain range excludes pre-releases under semver rules). -/
def specC (v : Version) : Bool :=
  v.pre.isEmpty && !Version.lt v v110

/-- The spec's end-to-end local set `{1.0.0}`. -/
def specL : List Version := [v100]

/-- The spec's end-to-end remote set `{1.0.0, 1.2.0, 2.0.0-beta.1}`. -/
def specR : List Version := [v100, v120, v200b1]

/-- A sample remote listing: two files decoding to the same version and a
non-file entry. -/
def sampleEntries : List RemoteEntry :=
  [⟨"file".toList, "zkvyper-linux-amd64-v1.2.0".toList, "u1".toList⟩,
   ⟨"dir".toList, "sub".toList, "u2".toList⟩,
   ⟨"file".toList, "zkvyper-linux-amd64-v1.2.0".toList, "u3".toList⟩]

/-! ## Lemmas on the version order -/

lemma chLT_asymm : ∀ {a b : List Char}, chLT a b = true → chLT b a = false
  | [], [], h => by simp [chLT] at h
  | [], _ :: _, _ => rfl
  | _ :: _, [], h => by simp [chLT] at h
  | a :: as, b :: bs, h => by
    by_cases hab : a = b
    · subst hab
      simp only [chLT, if_pos rfl] at h ⊢
      exact chLT_asymm h
    · simp only [chLT, if_neg hab, if_neg (Ne.symm hab),
        decide_eq_true_eq, decide_eq_false_iff_not] at h ⊢
      exact lt_asymm h

lemma chLT_trans : ∀ {a b c : List Char},
    chLT a b = true → chLT b c = true → chLT a c = true
  | [], _ :: _, [], _, h2 => by simp [chLT] at h2
  | [], [], _, h1, _ => by simp [chLT] at h1
  | [], _ :: _, _ :: _, _, _ => rfl
  | _ :: _, [], _, h1, _ => by simp [chLT] at h1
  | _ :: _, _ :: _, [], _, h2 => by simp [chLT] at h2
  | a :: as, b :: bs, c :: cs, h1, h2 => by
    by_cases hab : a = b
    · subst hab
      simp only [chLT, if_pos rfl] at h1
      by_cases hac : a = c
      · subst hac
        simp only [chLT, if_pos rfl] at h2 ⊢
        exact chLT_trans h1 h2
      · simpa only [chLT, if_neg hac] using h2
    · simp only [chLT, if_neg hab, decide_eq_true_eq] at h1
      by_cases hbc : b = c
      · subst hbc
        simp only [chLT, if_neg hab, decide_eq_true_eq]
        exact h1
      · simp only [chLT, if_neg hbc, decide_eq_true_eq] at h2
        have hac : a < c := lt_trans h1 h2
        simp only [chLT, if_neg (ne_of_lt hac), decide_eq_true_eq]
        exact hac

lemma identLT_asymm {a b : List Char} (h : identLT a b = true) :
    identLT b a = false := by
  unfold identLT at h ⊢
  by_cases ha : identIsNum a <;> by_cases hb : identIsNum b <;>
    simp [ha, hb] at h ⊢ <;>
    first
      | omega
      | exact chLT_asymm h

lemma identLT_trans {a b c : List Char} (h1 : identLT a b = true)
    (h2 : identLT b c = true) : identLT a c = true := by
  unfold identLT at h1 h2 ⊢
  by_cases ha : identIsNum a <;> by_cases hb : identIsNum b <;>
    by_cases hc : identIsNum c <;>
    simp [ha, hb, hc] at h1 h2 ⊢ <;>
    first
      | omega
      | exact chLT_trans h1 h2

lemma preLex_asymm : ∀ {a b : List (List Char)},
    preLex a b = true → preLex b a = false
  | [], [], h => by simp [preLex] at h
  | [], _ :: _, _ => rfl
  | _ :: _, [], h => by simp [preLex] at h
  | a :: as, b :: bs, h => by
    by_cases hab : a = b
    · subst hab
      simp only [preLex, if_pos rfl] at h ⊢
      exact preLex_asymm h
    · simp only [preLex, if_neg hab, if_neg (Ne.symm hab)] at h ⊢
      exact identLT_asymm h

lemma identLT_irrefl (a : List Char) : identLT a a = false := by
  cases h : identLT a a
  · rfl
  · have h2 := identLT_asymm h
    rw [h2] at h
    exact absurd h Bool.false_ne_true

lemma preLex_trans : ∀ {a b c : List (List Char)},
    preLex a b = true → preLex b c = true → preLex a c = true
  | [], _ :: _, [], _, h2 => by simp [preLex] at h2
  | [], [], _, h1, _ => by simp [preLex] at h1
  | [], _ :: _, _ :: _, _, _ => rfl
  | _ :: _, [], _, h1, _ => by simp [preLex] at h1
  | _ :: _, _ :: _, [], _, h2 => by simp [preLex] at h2
  | a :: as, b :: bs, c :: cs, h1, h2 => by
    by_cases hab : a = b
    · subst hab
      simp only [preLex, if_pos rfl] at h1
      by_cases hac : a = c
      · subst hac
        simp only [preLex, if_pos rfl] at h2 ⊢
        exact preLex_trans h1 h2
      · simpa only [preLex, if_neg hac] using h2
    · simp only [preLex, if_neg hab] at h1
      by_cases hbc : b = c
      · subst hbc
        simp only [preLex, if_neg hab]
        exact h1
      · simp only [preLex, if_neg hbc] at h2
        have hac : a ≠ c := by
          intro he
          subst he
          have h3 := identLT_asymm h1
          rw [h3] at h2
          exact Bool.noConfusion h2
        simp only [preLex, if_neg hac]
        exact identLT_trans h1 h2

lemma preLtR_asymm {a b : List (List Char)} (h : preLtR a b = true) :
    preLtR b a = false := by
  unfold preLtR at h ⊢
  by_cases ha : a = [] <;> by_cases hb : b = [] <;>
    simp [ha, hb] at h ⊢ <;>
    first
      | rfl
      | exact preLex_asymm h

lemma preLtR_trans {a b c : List (List Char)} (h1 : preLtR a b = true)
    (h2 : preLtR b c = true) : preLtR a c = true := by
  unfold preLtR at h1 h2 ⊢
  by_cases ha : a = [] <;> by_cases hb : b = [] <;> by_cases hc : c = [] <;>
    simp [ha, hb, hc] at h1 h2 ⊢ <;>
    first
      | rfl
      | exact preLex_trans h1 h2

lemma vlt_iff {a b : Version} : Version.lt a b = true ↔
    a.major < b.major ∨ (a.major = b.major ∧ (a.minor < b.minor ∨
      (a.minor = b.minor ∧ (a.patch < b.patch ∨
        (a.patch = b.patch ∧ preLtR a.pre b.pre = true))))) := by
  unfold Version.lt
  split_ifs with h1 h2 h3 <;> simp_all <;> omega

lemma vlt_asymm {a b : Version} (h : Version.lt a b = true) :
    Version.lt b a = false := by
  rw [vlt_iff] at h
  cases hba : Version.lt b a
  · rfl
  · exfalso
    rw [vlt_iff] at hba
    rcases h with h | ⟨e1, h⟩
    · rcases hba with hb | ⟨f1, _⟩ <;> omega
    · rcases h with h | ⟨e2, h⟩
      · rcases hba with hb | ⟨f1, hb | ⟨f2, _⟩⟩ <;> omega
      · rcases h with h | ⟨e3, h⟩
        · rcases hba with hb | ⟨f1, hb | ⟨f2, hb | ⟨f3, _⟩⟩⟩ <;> omega
        · rcases hba with hb | ⟨f1, hb | ⟨f2, hb | ⟨f3, hb⟩⟩⟩
          · omega
          · omega
          · omega
          · have h4 := preLtR_asymm h
            rw [h4] at hb
            exact Bool.noConfusion hb

lemma vlt_irrefl (a : Version) : Version.lt a a = false := by
  cases h : Version.lt a a
  · rfl
  · have h2 := vlt_asymm h
    rw [h2] at h
    exact absurd h Bool.false_ne_true

lemma vlt_trans {a b c : Version} (h1 : Version.lt a b = true)
    (h2 : Version.lt b c = true) : Version.lt a c = true := by
  rw [vlt_iff] at h1 h2 ⊢
  rcases h1 with h1 | ⟨e1, h1⟩
  · rcases h2 with h2 | ⟨f1, _⟩ <;> omega
  · rcases h2 with h2 | ⟨f1, h2⟩
    · omega
    · rcases h1 with h1 | ⟨e2, h1⟩
      · rcases h2 with h2 | ⟨f2, _⟩ <;> omega
      · rcases h2 with h2 | ⟨f2, h2⟩
        · omega
        · rcases h1 with h1 | ⟨e3, h1⟩
          · rcases h2 with h2 | ⟨f3, _⟩ <;> omega
          · rcases h2 with h2 | ⟨f3, h2⟩
            · omega
            · right
              refine ⟨by omega, Or.inr ⟨by omega, Or.inr ⟨by omega, ?_⟩⟩⟩
              exact preLtR_trans h1 h2

/-! ## Lemmas on `foldMax`, `select` and `resolve` -/

lemma foldMax_cons (x v : Version) (rest : List Version) :
    foldMax x (v :: rest) = foldMax (if Version.lt x v then v else x) rest :=
  rfl

lemma foldMax_mem (xs : List Version) : ∀ x, foldMax x xs = x ∨ foldMax x xs ∈ xs := by
  induction xs with
  | nil => intro x; exact Or.inl rfl
  | cons v rest ih =>
    intro x
    rw [foldMax_cons]
    by_cases h : Version.lt x v = true
    · rw [if_pos h]
      rcases ih v with h2 | h2
      · exact Or.inr (by rw [h2]; exact List.mem_cons_self ..)
      · exact Or.inr (List.mem_cons_of_mem _ h2)
    · rw [if_neg h]
      rcases ih x with h2 | h2
      · exact Or.inl h2
      · exact Or.inr (List.mem_cons_of_mem _ h2)

lemma foldMax_ub_of (xs : List Version) : ∀ x w, Version.lt x w = false →
    Version.lt (foldMax x xs) w = false := by
  induction xs with
  | nil => intro x w h; exact h
  | cons v rest ih =>
    intro x w h
    rw [foldMax_cons]
    by_cases hxv : Version.lt x v = true
    · rw [if_pos hxv]
      apply ih
      cases hvw : Version.lt v w
      · rfl
      · have h3 := vlt_trans hxv hvw
        rw [h] at h3
        exact absurd h3 Bool.false_ne_true
    · rw [if_neg hxv]
      exact ih x w h

lemma foldMax_ub (xs : List Version) : ∀ x w, w ∈ xs →
    Version.lt (foldMax x xs) w = false := by
  induction xs with
  | nil => intro x w h; cases h
  | cons v rest ih =>
    intro x w hw
    rw [foldMax_cons]
    rcases List.mem_cons.mp hw with rfl | hw2
    · apply foldMax_ub_of
      by_cases hxv : Version.lt x w = true
      · rw [if_pos hxv]; exact vlt_irrefl w
      · rw [if_neg hxv]
        cases h2 : Version.lt x w
        · rfl
        · exact absurd h2 hxv
    · exact ih _ w hw2

lemma foldMax_ub_self (xs : List Version) (x : Version) :
    Version.lt (foldMax x xs) x = false :=
  foldMax_ub_of xs x x (vlt_irrefl x)

lemma select_eq_some {C : Version → Bool} {vs : List Version} {m : Version}
    (h : select C vs = some m) :
    m ∈ vs ∧ C m = true ∧ ∀ v ∈ vs, C v = true → Version.lt m v = false := by
  unfold select at h
  cases hf : vs.filter C with
  | nil => rw [hf] at h; exact Option.noConfusion h
  | cons x xs =>
    rw [hf] at h
    injection h with h
    subst h
    have hmem : foldMax x xs ∈ x :: xs := by
      rcases foldMax_mem xs x with h2 | h2
      · rw [h2]; exact List.mem_cons_self ..
      · exact List.mem_cons_of_mem _ h2
    rw [← hf] at hmem
    refine ⟨(List.mem_filter.mp hmem).1, (List.mem_filter.mp hmem).2, ?_⟩
    intro v hv hc
    have hvf : v ∈ x :: xs := by
      rw [← hf]
      exact List.mem_filter.mpr ⟨hv, hc⟩
    rcases List.mem_cons.mp hvf with rfl | hv2
    · exact foldMax_ub_self xs v
    · exact foldMax_ub xs x v hv2

lemma select_eq_none {C : Version → Bool} {vs : List Version} :
    select C vs = none ↔ ∀ v ∈ vs, C v = false := by
  unfold select
  constructor
  · intro h v hv
    cases hf : vs.filter C with
    | nil =>
      have h2 := List.filter_eq_nil_iff.mp hf v hv
      cases hc : C v
      · rfl
      · exact absurd hc h2
    | cons x xs => rw [hf] at h; exact Option.noConfusion h
  · intro h
    have hf : vs.filter C = [] := List.filter_eq_nil_iff.mpr (by
      intro a ha
      rw [h a ha]
      exact Bool.false_ne_true)
    rw [hf]

/-- Claim C1: `resolve` returns the maximum version of the local set
satisfying the constraint when one exists, otherwise the maximum version
of the remote set satisfying it, otherwise no selection; a satisfying
local version is always preferred over any remote one. -/
theorem C1_resolve (C : Version → Bool) (L R : List Version) :
    (∀ m, resolve C L R = some m → C m = true ∧
      ((m ∈ L ∧ ∀ v ∈ L, C v = true → Version.lt m v = false) ∨
       ((∀ v ∈ L, C v = false) ∧ m ∈ R ∧
         ∀ v ∈ R, C v = true → Version.lt m v = false))) ∧
    (resolve C L R = none ↔ (∀ v ∈ L, C v = false) ∧ (∀ v ∈ R, C v = false)) := by
  constructor
  · intro m hm
    unfold resolve at hm
    cases hl : select C L with
    | some x =>
      rw [hl] at hm
      injection hm with hm
      subst hm
      obtain ⟨h1, h2, h3⟩ := select_eq_some hl
      exact ⟨h2, Or.inl ⟨h1, h3⟩⟩
    | none =>
      rw [hl] at hm
      obtain ⟨h1, h2, h3⟩ := select_eq_some hm
      exact ⟨h2, Or.inr ⟨select_eq_none.mp hl, h1, h3⟩⟩
  · unfold resolve
    cases hl : select C L with
    | some x =>
      constructor
      · intro h; exact Option.noConfusion h
      · intro ⟨h1, _⟩
        rw [select_eq_none.mpr h1] at hl
        exact Option.noConfusion hl
    | none =>
      constructor
      · intro h
        exact ⟨select_eq_none.mp hl, select_eq_none.mp h⟩
      · intro ⟨_, h2⟩
        exact select_eq_none.mpr h2

/-- Witness for C1 at the spec's end-to-end scenario: constraint
`">=1.1.0"`, locals `{1.0.0}`, remotes `{1.0.0, 1.2.0, 2.0.0-beta.1}`
resolve to `1.2.0`, taken from the remote set because nothing local
matches. -/
theorem C1_resolve_witness :
    specC v120 = true ∧
      ((v120 ∈ specL ∧ ∀ v ∈ specL, specC v = true → Version.lt v120 v = false) ∨
       ((∀ v ∈ specL, specC v = false) ∧ v120 ∈ specR ∧
         ∀ v ∈ specR, specC v = true → Version.lt v120 v = false)) :=
  (C1_resolve specC specL specR).1 v120 (by decide)

/-! ## Lemmas on decimal rendering and parsing -/

lemma digitChar_isDigit : ∀ n, n < 10 → (Nat.digitChar n).isDigit = true := by
  decide

lemma digitChar_toNat : ∀ n, n < 10 → (Nat.digitChar n).toNat - 48 = n := by
  decide

lemma digitChar_ne_dot : ∀ n, n < 10 → Nat.digitChar n ≠ '.' := by
  decide

lemma digitChar_ne_dash : ∀ n, n < 10 → Nat.digitChar n ≠ '-' := by
  decide

lemma digitChar_ne_zero : ∀ n, 1 ≤ n → n < 10 → Nat.digitChar n ≠ '0' := by
  decide

lemma natStrCore_ne_nil : ∀ fuel n, natStrCore fuel n ≠ []
  | 0, n => by simp [natStrCore]
  | fuel + 1, n => by
    unfold natStrCore
    by_cases h : n < 10
    · simp [h]
    · simp [h]

lemma natStrCore_digits : ∀ fuel n, n ≤ fuel →
    ∀ c ∈ natStrCore fuel n, c.isDigit = true
  | 0, n, hn, c, hc => by
    interval_cases n
    simp [natStrCore] at hc
    subst hc
    decide
  | fuel + 1, n, hn, c, hc => by
    unfold natStrCore at hc
    by_cases h : n < 10
    · rw [if_pos h] at hc
      simp at hc
      subst hc
      exact digitChar_isDigit n h
    · rw [if_neg h] at hc
      rcases List.mem_append.mp hc with hc2 | hc2
      · exact natStrCore_digits fuel (n / 10) (by omega) c hc2
      · simp at hc2
        subst hc2
        exact digitChar_isDigit (n % 10) (by omega)

lemma parseNum_natStrCore : ∀ fuel n, n ≤ fuel →
    parseNum (natStrCore fuel n) = n
  | 0, n, hn => by
    interval_cases n
    decide
  | fuel + 1, n, hn => by
    unfold natStrCore
    by_cases h : n < 10
    · rw [if_pos h]
      have := digitChar_toNat n h
      simp [parseNum]
      omega
    · rw [if_neg h]
      unfold parseNum
      rw [List.foldl_append]
      have ih : parseNum (natStrCore fuel (n / 10)) = n / 10 :=
        parseNum_natStrCore fuel (n / 10) (by omega)
      unfold parseNum at ih
      rw [ih]
      show n / 10 * 10 + ((Nat.digitChar (n % 10)).toNat - 48) = n
      have := digitChar_toNat (n % 10) (by omega)
      omega

lemma natStrCore_headD : ∀ fuel n, n ≤ fuel → 1 ≤ n →
    (natStrCore fuel n).headD ' ' ≠ '0'
  | 0, n, hn, h1 => by omega
  | fuel + 1, n, hn, h1 => by
    unfold natStrCore
    by_cases h : n < 10
    · rw [if_pos h]
      simpa using digitChar_ne_zero n h1 h
    · rw [if_neg h]
      cases hs : natStrCore fuel (n / 10) with
      | nil => exact absurd hs (natStrCore_ne_nil fuel (n / 10))
      | cons x xs =>
        have ih := natStrCore_headD fuel (n / 10) (by omega) (by omega)
        rw [hs] at ih
        simpa using ih

lemma natStr_digits (n : Nat) : ∀ c ∈ natStr n, c.isDigit = true :=
  natStrCore_digits n n le_rfl

lemma natStr_ne_nil (n : Nat) : natStr n ≠ [] :=
  natStrCore_ne_nil n n

lemma natStr_not_dot (n : Nat) : '.' ∉ natStr n := by
  intro h
  have := natStr_digits n '.' h
  simp at this

lemma natStr_not_dash (n : Nat) : '-' ∉ natStr n := by
  intro h
  have := natStr_digits n '-' h
  simp at this

lemma parseNumeric_natStr (n : Nat) : parseNumeric (natStr n) = some n := by
  unfold parseNumeric
  have hnil : (natStr n).isEmpty = false := by
    cases hs : natStr n with
    | nil => exact absurd hs (natStr_ne_nil n)
    | cons x xs => rfl
  have hdig : (natStr n).all Char.isDigit = true :=
    List.all_eq_true.mpr (natStr_digits n)
  have hlead : ((natStr n).length = 1 || (natStr n).headD ' ' ≠ '0') = true := by
    by_cases h : n < 10
    · have hone : natStr n = [Nat.digitChar n] := by
        cases n with
        | zero => rfl
        | succ m =>
          show natStrCore (m + 1) (m + 1) = [Nat.digitChar (m + 1)]
          rw [natStrCore, if_pos h]
      rw [hone]
      simp
    · have := natStrCore_headD n n le_rfl (by omega)
      simp only [Bool.or_eq_true, decide_eq_true_eq]
      right
      exact this
  rw [hnil, hdig, hlead]
  simp [parseNum_natStrCore n n le_rfl, natStr]

/-! ## Lemmas on `splitOnChar` -/

lemma splitOnChar_ne_nil (sep : Char) : ∀ s, splitOnChar sep s ≠ []
  | [] => by simp [splitOnChar]
  | c :: rest => by
    unfold splitOnChar
    cases hs : splitOnChar sep rest with
    | nil => exact absurd hs (splitOnChar_ne_nil sep rest)
    | cons r rs =>
      by_cases h : c = sep
      · simp [h]
      · simp [h]

lemma splitOnChar_not_mem {sep : Char} : ∀ {s : List Char}, sep ∉ s →
    splitOnChar sep s = [s]
  | [], _ => rfl
  | c :: rest, h => by
    have hc : c ≠ sep := fun he => h (he ▸ List.mem_cons_self ..)
    have hr : sep ∉ rest := fun hm => h (List.mem_cons_of_mem _ hm)
    rw [splitOnChar, splitOnChar_not_mem hr]
    simp [hc]

lemma splitOnChar_append {sep : Char} : ∀ {a : List Char} (b : List Char),
    sep ∉ a → splitOnChar sep (a ++ sep :: b) = a :: splitOnChar sep b
  | [], b, _ => by
    show splitOnChar sep (sep :: b) = [] :: splitOnChar sep b
    rw [splitOnChar]
    cases hs : splitOnChar sep b with
    | nil => exact absurd hs (splitOnChar_ne_nil sep b)
    | cons r rs => simp
  | c :: a', b, h => by
    have hc : c ≠ sep := fun he => h (he ▸ List.mem_cons_self ..)
    have ha : sep ∉ a' := fun hm => h (List.mem_cons_of_mem _ hm)
    show splitOnChar sep (c :: (a' ++ sep :: b)) = (c :: a') :: splitOnChar sep b
    rw [splitOnChar, splitOnChar_append b ha]
    simp [hc]

/-! ## Round trip of the cache filename encoding -/

lemma verChars_pre_nil {v : Version} (h : v.pre = []) :
    verChars v =
      natStr v.major ++ '.' :: (natStr v.minor ++ '.' :: natStr v.patch) := by
  unfold verChars
  rw [h]
  simp

lemma verChars_not_dash {v : Version} (h : v.pre = []) : '-' ∉ verChars v := by
  rw [verChars_pre_nil h]
  intro hm
  rcases List.mem_append.mp hm with h1 | h1
  · exact natStr_not_dash _ h1
  · rcases List.mem_cons.mp h1 with h2 | h2
    · exact absurd h2 (by decide)
    · rcases List.mem_append.mp h2 with h3 | h3
      · exact natStr_not_dash _ h3
      · rcases List.mem_cons.mp h3 with h4 | h4
        · exact absurd h4 (by decide)
        · exact natStr_not_dash _ h4

lemma parseVersion_verChars {v : Version} (h : v.pre = []) :
    parseVersion (verChars v) = some v := by
  cases v with
  | mk a b c p =>
    simp only at h
    subst h
    rw [verChars_pre_nil rfl]
    unfold parseVersion
    rw [show (Version.mk a b c []).major = a from rfl,
      show (Version.mk a b c []).minor = b from rfl,
      show (Version.mk a b c []).patch = c from rfl]
    rw [splitOnChar_append _ (natStr_not_dot a),
      splitOnChar_append _ (natStr_not_dot b),
      splitOnChar_not_mem (natStr_not_dot c)]
    simp [parseNumeric_natStr]

lemma decode_versionFileName {v : Version} (h : v.pre = []) :
    decodeFileName (versionFileName v) = some v := by
  unfold decodeFileName versionFileName
  have hz : "zkvyper-".toList = "zkvyper".toList ++ '-' :: [] := by decide
  rw [hz, List.append_assoc]
  show parseVersion ((splitOnChar '-' ("zkvyper".toList ++ '-' :: verChars v)).getLastD []) = some v
  rw [splitOnChar_append _ (by decide), splitOnChar_not_mem (verChars_not_dash h)]
  simp only [List.getLastD_cons, List.getLastD_nil]
  exact parseVersion_verChars h

/-! ## Lemmas on the local listing and the cache -/

lemma local_versions_cons_ok {f : List Char} {rest : List (List Char)}
    {v : Version} {vs : List Version} (hd : decodeFileName f = some v)
    (hr : local_versions rest = .ok vs) :
    local_versions (f :: rest) = .ok (v :: vs) := by
  rw [local_versions, hd, hr]

lemma local_versions_cons_inv {f : List Char} {rest : List (List Char)}
    {vs : List Version} (h : local_versions (f :: rest) = .ok vs) :
    ∃ v vs', decodeFileName f = some v ∧ local_versions rest = .ok vs' ∧
      vs = v :: vs' := by
  rw [local_versions] at h
  cases hd : decodeFileName f with
  | none => rw [hd] at h; exact Except.noConfusion h
  | some v =>
    rw [hd] at h
    cases hr : local_versions rest with
    | error e => rw [hr] at h; exact Except.noConfusion h
    | ok vs' =>
      rw [hr] at h
      injection h with h
      exact ⟨v, vs', rfl, rfl, h.symm⟩

lemma local_versions_append {l1 l2 : List (List Char)} {vs1 vs2 : List Version}
    (h1 : local_versions l1 = .ok vs1) (h2 : local_versions l2 = .ok vs2) :
    local_versions (l1 ++ l2) = .ok (vs1 ++ vs2) := by
  induction l1 generalizing vs1 with
  | nil =>
    rw [local_versions] at h1
    injection h1 with h1
    subst h1
    simpa using h2
  | cons f rest ih =>
    obtain ⟨v, vs', hd, hr, rfl⟩ := local_versions_cons_inv h1
    show local_versions (f :: (rest ++ l2)) = _
    rw [local_versions_cons_ok hd (ih hr)]
    simp

lemma local_versions_mem {l : List (List Char)} {vs : List Version}
    (h : local_versions l = .ok vs) :
    ∀ v, v ∈ vs ↔ ∃ f ∈ l, decodeFileName f = some v := by
  induction l generalizing vs with
  | nil =>
    rw [local_versions] at h
    injection h with h
    subst h
    simp
  | cons f rest ih =>
    obtain ⟨w, vs', hd, hr, rfl⟩ := local_versions_cons_inv h
    intro v
    simp only [List.mem_cons]
    constructor
    · rintro (rfl | hv)
      · exact ⟨f, Or.inl rfl, hd⟩
      · obtain ⟨g, hg, hgd⟩ := (ih hr v).mp hv
        exact ⟨g, Or.inr hg, hgd⟩
    · rintro ⟨g, hg | hg, hgd⟩
      · subst hg
        left
        rw [hd] at hgd
        injection hgd with hgd
        exact hgd.symm
      · right
        exact (ih hr v).mpr ⟨g, hg, hgd⟩

lemma local_versions_sublist {l' l : List (List Char)}
    (hs : List.Sublist l' l) :
    ∀ {vs}, local_versions l = .ok vs →
      ∃ vs', local_versions l' = .ok vs' ∧ List.Sublist vs' vs := by
  induction hs with
  | slnil =>
    intro vs h
    exact ⟨vs, h, List.Sublist.refl vs⟩
  | cons f _ ih =>
    intro vs h
    obtain ⟨w, vs', _, hr, rfl⟩ := local_versions_cons_inv h
    obtain ⟨vs'', h1, h2⟩ := ih hr
    exact ⟨vs'', h1, h2.cons w⟩
  | cons₂ f _ ih =>
    intro vs h
    obtain ⟨w, vs', hd, hr, rfl⟩ := local_versions_cons_inv h
    obtain ⟨vs'', h1, h2⟩ := ih hr
    exact ⟨w :: vs'', local_versions_cons_ok hd h1, h2.cons₂ w⟩

lemma insertFile_erase_sub (files : List (List Char)) (n : List Char) :
    List.Sublist ((insertFile files n).erase n) files := by
  unfold insertFile
  by_cases h : n ∈ files
  · rw [if_pos h]
    exact List.erase_sublist ..
  · rw [if_neg h, List.erase_append_right _ h]
    simp

lemma insertFile_erase_not_mem {files : List (List Char)} {n : List Char}
    (hnod : files.Nodup) : n ∉ (insertFile files n).erase n := by
  unfold insertFile
  by_cases h : n ∈ files
  · rw [if_pos h]
    exact hnod.not_mem_erase
  · rw [if_neg h, List.erase_append_right _ h]
    simpa using h

lemma insertFile_not_mem {files : List (List Char)} {n : List Char}
    (h : n ∉ files) : insertFile files n = files ++ [n] := by
  unfold insertFile
  rw [if_neg h]

/-- When the pre-install listing succeeds and does not contain `v`, the
final cache name of `v` (decodable because `v` has no pre-release part)
cannot already be present. -/
lemma fileName_not_mem {files : List (List Char)} {locals : List Version}
    {v : Version} (hpre : v.pre = [])
    (hloc : local_versions files = .ok locals) (hvn : v ∉ locals) :
    versionFileName v ∉ files := by
  intro hmem
  exact hvn ((local_versions_mem hloc v).mpr
    ⟨versionFileName v, hmem, decode_versionFileName hpre⟩)

lemma install_noop (files : List (List Char)) (locals : List Version)
    (v : Version) (tOk : Bool) (ec : Nat) (out : List Char)
    (hloc : local_versions files = .ok locals) (hv : v ∈ locals) :
    install files v false tOk ec out = (.ok (), files, 0) := by
  unfold install
  rw [hloc]
  simp only []
  rw [if_pos ⟨hv, by simp⟩]

lemma install_proceeds (files : List (List Char)) (locals : List Version)
    (v : Version) (overwrite tOk : Bool) (ec : Nat) (out : List Char)
    (hloc : local_versions files = .ok locals)
    (hskip : ¬(v ∈ locals ∧ ¬overwrite)) :
    install files v overwrite tOk ec out =
      (if ¬tOk then
        (.error .transferFailed,
          (insertFile files (versionFileName v)).erase (versionFileName v), 1)
       else if ec ≠ 0 then
        (.error .badExec,
          (insertFile files (versionFileName v)).erase (versionFileName v), 1)
       else if ¬sub (verChars v) out then
        (.error .versionMismatch,
          (insertFile files (versionFileName v)).erase (versionFileName v), 1)
       else (.ok (), insertFile files (versionFileName v), 1)) := by
  unfold install
  rw [hloc]
  simp only []
  rw [if_neg hskip]

/-! ## Claim theorems on install and uninstall -/

/-- Claim C2: when the byte transfer fails, `install` re-raises the error,
one transfer was opened, the partial artifact is deleted (the final cache
name of `v` is not present afterwards), and any successful local listing
made afterwards does not contain `v`. -/
theorem C2_transfer_failure (files : List (List Char)) (v : Version)
    (locals : List Version) (ec : Nat) (out : List Char)
    (hnod : files.Nodup) (hloc : local_versions files = .ok locals)
    (hvn : v ∉ locals) :
    (install files v false false ec out).1 = .error .transferFailed ∧
    (install files v false false ec out).2.2 = 1 ∧
    versionFileName v ∉ (install files v false false ec out).2.1 ∧
    ∀ ls, local_versions (install files v false false ec out).2.1 = .ok ls →
      v ∉ ls := by
  have hstep := install_proceeds files locals v false false ec out
    hloc (fun h => hvn h.1)
  rw [if_pos (by simp)] at hstep
  rw [hstep]
  refine ⟨rfl, rfl, insertFile_erase_not_mem hnod, ?_⟩
  intro ls hls hvmem
  obtain ⟨vs', h1, h2⟩ :=
    local_versions_sublist (insertFile_erase_sub files (versionFileName v)) hloc
  rw [h1] at hls
  injection hls with hls
  subst hls
  exact hvn (h2.subset hvmem)

/-- Witness for C2: a failed transfer of `1.2.0` into a cache holding
`1.0.0` surfaces the error, deletes the partial file and leaves a listing
without `1.2.0`. -/
theorem C2_transfer_failure_witness :
    (install ["zkvyper-1.0.0".toList] v120 false false 0 []).1 =
        .error .transferFailed ∧
    (install ["zkvyper-1.0.0".toList] v120 false false 0 []).2.2 = 1 ∧
    versionFileName v120 ∉
      (install ["zkvyper-1.0.0".toList] v120 false false 0 []).2.1 ∧
    ∀ ls, local_versions
        (install ["zkvyper-1.0.0".toList] v120 false false 0 []).2.1 =
          .ok ls → v120 ∉ ls :=
  C2_transfer_failure ["zkvyper-1.0.0".toList] v120 [v100] 0 []
    (by decide) rfl (by decide)

/-- Counterexample for C3 as stated: installing the pre-release
`2.0.0-beta.1` into an empty cache succeeds, but the local listing
afterwards raises `ValueError` (the filename decoder only sees the last
dash-segment `"beta.1"`), so it does not contain the version. -/
theorem C3_roundtrip_cex :
    (install [] v200b1 false true 0 (verChars v200b1)).1 = .ok () ∧
    local_versions (install [] v200b1 false true 0 (verChars v200b1)).2.1 =
      .error () := by
  constructor
  · rfl
  · rfl

/-- Claim C3 (amended): the install/list/uninstall round trip holds for
every version whose string form contains no dash (empty pre-release): after
a successful fresh install the listing contains `v`, and after
uninstalling the installed file it no longer does. -/
theorem C3_roundtrip (files : List (List Char)) (v : Version)
    (locals : List Version) (out : List Char) (hpre : v.pre = [])
    (hloc : local_versions files = .ok locals) (hvn : v ∉ locals)
    (hsub : sub (verChars v) out = true) :
    (install files v false true 0 out).1 = .ok () ∧
    (∃ ls, local_versions (install files v false true 0 out).2.1 = .ok ls ∧
      v ∈ ls) ∧
    (∃ ls2, local_versions
        (uninstall (install files v false true 0 out).2.1
          (versionFileName v)).1 = .ok ls2 ∧ v ∉ ls2) := by
  have hfn : versionFileName v ∉ files := fileName_not_mem hpre hloc hvn
  have hstep := install_proceeds files locals v false true 0 out
    hloc (fun h => hvn h.1)
  rw [if_neg (by simp), if_neg (by simp), if_neg (by simp [hsub]),
    insertFile_not_mem hfn] at hstep
  rw [hstep]
  have hlist : local_versions (files ++ [versionFileName v]) =
      .ok (locals ++ [v]) :=
    local_versions_append hloc
      (local_versions_cons_ok (decode_versionFileName hpre) rfl)
  refine ⟨rfl, ⟨locals ++ [v], hlist, by simp⟩, ?_⟩
  have hun : uninstall (files ++ [versionFileName v]) (versionFileName v) =
      (files, false) := by
    unfold uninstall
    rw [if_pos (by simp), List.erase_append_right _ hfn]
    simp
  rw [hun]
  exact ⟨locals, hloc, hvn⟩

/-- Witness for C3 (amended): round trip of `1.2.0` through an empty
cache. -/
theorem C3_roundtrip_witness :
    (install [] v120 false true 0 (verChars v120)).1 = .ok () ∧
    (∃ ls, local_versions (install [] v120 false true 0 (verChars v120)).2.1 =
      .ok ls ∧ v120 ∈ ls) ∧
    (∃ ls2, local_versions
        (uninstall (install [] v120 false true 0 (verChars v120)).2.1
          (versionFileName v120)).1 = .ok ls2 ∧ v120 ∉ ls2) :=
  C3_roundtrip [] v120 [] (verChars v120) rfl rfl (by decide) (by decide)

/-- Claim C4: installing a version already present locally (without
`overwrite`) is a no-op that opens no transfer; a fresh install followed by
a repeat call performs exactly one transfer in total and leaves exactly one
cached artifact for the version. -/
theorem C4_idempotent (files : List (List Char)) (v : Version)
    (locals : List Version) (out : List Char) (hpre : v.pre = [])
    (hloc : local_versions files = .ok locals)
    (hsub : sub (verChars v) out = true) :
    (v ∈ locals → ∀ tOk2 ec2 out2,
      install files v false tOk2 ec2 out2 = (.ok (), files, 0)) ∧
    (v ∉ locals →
      install files v false true 0 out =
        (.ok (), files ++ [versionFileName v], 1) ∧
      (∀ tOk2 ec2 out2,
        install (files ++ [versionFileName v]) v false tOk2 ec2 out2 =
          (.ok (), files ++ [versionFileName v], 0)) ∧
      (files ++ [versionFileName v]).count (versionFileName v) = 1) := by
  constructor
  · intro hv tOk2 ec2 out2
    exact install_noop _ _ _ tOk2 ec2 out2 hloc hv
  · intro hvn
    have hfn : versionFileName v ∉ files := fileName_not_mem hpre hloc hvn
    have hstep := install_proceeds files locals v false true 0 out
      hloc (fun h => hvn h.1)
    rw [if_neg (by simp), if_neg (by simp), if_neg (by simp [hsub]),
      insertFile_not_mem hfn] at hstep
    have hlist : local_versions (files ++ [versionFileName v]) =
        .ok (locals ++ [v]) :=
      local_versions_append hloc
        (local_versions_cons_ok (decode_versionFileName hpre) rfl)
    refine ⟨hstep, ?_, ?_⟩
    · intro tOk2 ec2 out2
      exact install_noop _ _ _ tOk2 ec2 out2 hlist (by simp)
    · rw [List.count_append, List.count_eq_zero.mpr hfn]
      simp

/-- Witness for C4: `1.2.0` fresh-installed into a cache holding `1.0.0`,
then re-installed: one transfer in total, a single artifact, and the
repeat call is a no-op. -/
theorem C4_idempotent_witness :
    (v120 ∈ [v100] → ∀ tOk2 ec2 out2,
      install ["zkvyper-1.0.0".toList] v120 false tOk2 ec2 out2 =
        (.ok (), ["zkvyper-1.0.0".toList], 0)) ∧
    (v120 ∉ [v100] →
      install ["zkvyper-1.0.0".toList] v120 false true 0 (verChars v120) =
        (.ok (), ["zkvyper-1.0.0".toList] ++ [versionFileName v120], 1) ∧
      (∀ tOk2 ec2 out2,
        install (["zkvyper-1.0.0".toList] ++ [versionFileName v120]) v120
            false tOk2 ec2 out2 =
          (.ok (), ["zkvyper-1.0.0".toList] ++ [versionFileName v120], 0)) ∧
      (["zkvyper-1.0.0".toList] ++ [versionFileName v120]).count
        (versionFileName v120) = 1) :=
  C4_idempotent ["zkvyper-1.0.0".toList] v120 [v100] (verChars v120)
    rfl rfl (by decide)

/-- Claim C6: after a successful write, `install` runs the binary with the
version-query flag; a non-zero exit status or a missing version string in
the output deletes the artifact and fails; only a successful verification
leaves the version installed. -/
theorem C6_verification (files : List (List Char)) (v : Version)
    (locals : List Version) (ec : Nat) (out : List Char)
    (hnod : files.Nodup) (hloc : local_versions files = .ok locals) :
    (ec ≠ 0 →
      (install files v true true ec out).1 = .error .badExec ∧
      versionFileName v ∉ (install files v true true ec out).2.1) ∧
    (ec = 0 → sub (verChars v) out = false →
      (install files v true true ec out).1 = .error .versionMismatch ∧
      versionFileName v ∉ (install files v true true ec out).2.1) ∧
    (ec = 0 → sub (verChars v) out = true →
      (install files v true true ec out).1 = .ok () ∧
      versionFileName v ∈ (install files v true true ec out).2.1) := by
  have hstep := install_proceeds files locals v true true ec out
    hloc (fun h => h.2 rfl)
  rw [if_neg (by simp)] at hstep
  refine ⟨?_, ?_, ?_⟩
  · intro hec
    rw [hstep, if_pos hec]
    exact ⟨rfl, insertFile_erase_not_mem hnod⟩
  · intro hec hout
    rw [hstep, if_neg (by simp [hec]), if_pos (by simp [hout])]
    exact ⟨rfl, insertFile_erase_not_mem hnod⟩
  · intro hec hout
    rw [hstep, if_neg (by simp [hec]), if_neg (by simp [hout])]
    refine ⟨rfl, ?_⟩
    unfold insertFile
    by_cases h : versionFileName v ∈ files
    · rw [if_pos h]
      exact h
    · rw [if_neg h]
      simp

/-- Witness for C6: verification of `1.2.0` on an empty cache in all three
outcomes (bad exit, wrong output, success). -/
theorem C6_verification_witness :
    ((1 : Nat) ≠ 0 →
      (install [] v120 true true 1 []).1 = .error .badExec ∧
      versionFileName v120 ∉ (install [] v120 true true 1 []).2.1) ∧
    ((1 : Nat) = 0 → sub (verChars v120) [] = false →
      (install [] v120 true true 1 []).1 = .error .versionMismatch ∧
      versionFileName v120 ∉ (install [] v120 true true 1 []).2.1) ∧
    ((1 : Nat) = 0 → sub (verChars v120) [] = true →
      (install [] v120 true true 1 []).1 = .ok () ∧
      versionFileName v120 ∈ (install [] v120 true true 1 []).2.1) :=
  C6_verification [] v120 [] 1 [] (by decide) rfl

/-- Claim C8: uninstalling an absent version is a warning-only no-op (no
exception, state unchanged), and uninstalling a present version deletes
exactly the file backing it. -/
theorem C8_uninstall (files : List (List Char)) (target : List Char)
    (hnod : files.Nodup) :
    (target ∉ files → uninstall files target = (files, true)) ∧
    (target ∈ files →
      (uninstall files target).1 = files.erase target ∧
      target ∉ (uninstall files target).1 ∧
      (uninstall files target).2 = false) := by
  constructor
  · intro h
    unfold uninstall
    rw [if_neg h]
  · intro h
    unfold uninstall
    rw [if_pos h]
    exact ⟨rfl, hnod.not_mem_erase, rfl⟩

/-- Witness for C8: uninstalling a version whose file is already gone from
a one-file cache leaves the cache unchanged and only warns. -/
theorem C8_uninstall_witness :
    ("zkvyper-9.9.9".toList ∉ ["zkvyper-1.0.0".toList] →
      uninstall ["zkvyper-1.0.0".toList] "zkvyper-9.9.9".toList =
        (["zkvyper-1.0.0".toList], true)) ∧
    ("zkvyper-9.9.9".toList ∈ ["zkvyper-1.0.0".toList] →
      (uninstall ["zkvyper-1.0.0".toList] "zkvyper-9.9.9".toList).1 =
        ["zkvyper-1.0.0".toList].erase "zkvyper-9.9.9".toList ∧
      "zkvyper-9.9.9".toList ∉
        (uninstall ["zkvyper-1.0.0".toList] "zkvyper-9.9.9".toList).1 ∧
      (uninstall ["zkvyper-1.0.0".toList] "zkvyper-9.9.9".toList).2 = false) :=
  C8_uninstall ["zkvyper-1.0.0".toList] "zkvyper-9.9.9".toList (by decide)

/-! ## Platform identification (C5) -/

/-- Claim C5 names a code bug: the Linux and Darwin x86 rows hold, and
`"aarch64"` is a recognized ARM alias, but every Darwin/ARM combination
raises `PlatformError` because the `macosx-arm64` branch repeats the
`_AMD64` membership test (the `_ARM64` tuple is never consulted). -/
theorem C5_platform_id :
    platform_id "Linux".toList "x86_64".toList = some "linux-amd64".toList ∧
    platform_id "Darwin".toList "x86_64".toList = some "macosx-amd64".toList ∧
    "aarch64".toList ∈ ARM64 ∧
    (∀ machine ∈ ARM64, platform_id "Darwin".toList machine = none) := by
  refine ⟨rfl, rfl, by decide, by decide⟩

/-- Witness for C5 at the failing input of the claim: Darwin plus
`aarch64` yields no platform id. -/
theorem C5_platform_id_witness :
    platform_id "Darwin".toList "aarch64".toList = none :=
  C5_platform_id.2.2.2 "aarch64".toList (by decide)

/-! ## Remote listing (C7) -/

lemma setInsert_mem (vs : List Version) (v w : Version) :
    w ∈ setInsert vs v ↔ w ∈ vs ∨ w = v := by
  unfold setInsert
  by_cases h : v ∈ vs
  · rw [if_pos h]
    constructor
    · exact Or.inl
    · rintro (h2 | rfl)
      · exact h2
      · exact h
  · rw [if_neg h]
    simp

lemma setInsert_nodup {vs : List Version} (h : vs.Nodup) (v : Version) :
    (setInsert vs v).Nodup := by
  unfold setInsert
  by_cases hm : v ∈ vs
  · rw [if_pos hm]
    exact h
  · rw [if_neg hm]
    rw [List.nodup_append]
    exact ⟨h, List.nodup_singleton v, by
      intro a ha hb
      simp at hb
      subst hb
      exact hm ha⟩

lemma remote_versions_from_spec (entries : List RemoteEntry) :
    ∀ acc out, acc.Nodup → remote_versions_from acc entries = .ok out →
      out.Nodup ∧ ∀ v, (v ∈ out ↔ v ∈ acc ∨ ∃ e ∈ entries,
        e.ftype = "file".toList ∧
          parseVersion (extractVerChars e.name) = some v) := by
  induction entries with
  | nil =>
    intro acc out hnod h
    rw [remote_versions_from] at h
    injection h with h
    subst h
    exact ⟨hnod, fun v => by simp⟩
  | cons e rest ih =>
    intro acc out hnod h
    rw [remote_versions_from] at h
    by_cases ht : e.ftype ≠ "file".toList
    · rw [if_pos ht] at h
      obtain ⟨h1, h2⟩ := ih acc out hnod h
      refine ⟨h1, fun v => ?_⟩
      rw [h2 v]
      constructor
      · rintro (hv | ⟨g, hg, hgt, hgp⟩)
        · exact Or.inl hv
        · exact Or.inr ⟨g, List.mem_cons_of_mem _ hg, hgt, hgp⟩
      · rintro (hv | ⟨g, hg, hgt, hgp⟩)
        · exact Or.inl hv
        · rcases List.mem_cons.mp hg with rfl | hg2
          · exact absurd hgt ht
          · exact Or.inr ⟨g, hg2, hgt, hgp⟩
    · rw [if_neg ht] at h
      push_neg at ht
      cases hp : parseVersion (extractVerChars e.name) with
      | none =>
        rw [hp] at h
        exact Except.noConfusion h
      | some w =>
        rw [hp] at h
        obtain ⟨h1, h2⟩ := ih (setInsert acc w) out (setInsert_nodup hnod w) h
        refine ⟨h1, fun v => ?_⟩
        rw [h2 v, setInsert_mem]
        constructor
        · rintro ((hv | rfl) | ⟨g, hg, hgt, hgp⟩)
          · exact Or.inl hv
          · exact Or.inr ⟨e, List.mem_cons_self .., ht, hp⟩
          · exact Or.inr ⟨g, List.mem_cons_of_mem _ hg, hgt, hgp⟩
        · rintro (hv | ⟨g, hg, hgt, hgp⟩)
          · exact Or.inl (Or.inl hv)
          · rcases List.mem_cons.mp hg with rfl | hg2
            · rw [hp] at hgp
              injection hgp with hgp
              exact Or.inl (Or.inr hgp.symm)
            · exact Or.inr ⟨g, hg2, hgt, hgp⟩

/-- Counterexample for C7 as stated: for an entry named
`"zkvyper-1.4.2"` the code strips the leading digit `"1"` unconditionally,
yielding `".4.2"`, while the claimed rule (strip one leading non-digit
character) yields `"1.4.2"`. -/
theorem C7_remote_listing_cex :
    extractVerChars "zkvyper-1.4.2".toList = ".4.2".toList ∧
    specExtractVerChars "zkvyper-1.4.2".toList = "1.4.2".toList ∧
    extractVerChars "zkvyper-1.4.2".toList ≠
      specExtractVerChars "zkvyper-1.4.2".toList := by
  refine ⟨rfl, rfl, by decide⟩

/-- Claim C7 (amended): the remote listing considers only entries whose
type is `"file"`; each surviving entry's version comes from splitting the
name on `"-"`, taking the last segment, and stripping exactly one leading
character unconditionally; and the result is duplicate-free (a set keyed
by version identity). -/
theorem C7_remote_listing (entries : List RemoteEntry) (out : List Version)
    (h : remote_versions entries = .ok out) :
    out.Nodup ∧
    ∀ v, (v ∈ out ↔ ∃ e ∈ entries, e.ftype = "file".toList ∧
      parseVersion (((splitOnChar '-' e.name).getLastD []).drop 1) = some v) := by
  obtain ⟨h1, h2⟩ := remote_versions_from_spec entries [] out (by simp) h
  refine ⟨h1, fun v => ?_⟩
  rw [h2 v]
  simp [extractVerChars]

/-- Witness for C7 (amended): a listing with two files decoding to the
same version `1.2.0` and one directory entry collapses to the single
version `1.2.0`. -/
theorem C7_remote_listing_witness :
    ([v120] : List Version).Nodup ∧
    ∀ v, (v ∈ [v120] ↔ ∃ e ∈ sampleEntries, e.ftype = "file".toList ∧
      parseVersion (((splitOnChar '-' e.name).getLastD []).drop 1) = some v) :=
  C7_remote_listing sampleEntries [v120] rfl

/-! ## Manager construction (C9) -/

/-- Claim C9 fails on the code: construction preserves the cache
directory's existence bit unchanged in every successful run (the cache
directory is never created), and the one directory-creation step the
constructor does perform — for the log file's parent — raises
`FileExistsError` when that parent already exists while the log file does
not, so it is not idempotent either. -/
theorem C9_managerInit :
    (∀ fs fs', managerInit fs = .ok fs' →
      fs'.cacheDirExists = fs.cacheDirExists) ∧
    managerInit ⟨true, true, false⟩ = .ok ⟨true, true, false⟩ ∧
    managerInit ⟨false, true, true⟩ = .error () := by
  refine ⟨?_, rfl, rfl⟩
  intro fs fs' h
  unfold managerInit at h
  by_cases h1 : fs.logFileExists = true
  · rw [if_pos h1] at h
    injection h with h
    subst h
    rfl
  · rw [if_neg h1] at h
    by_cases h2 : fs.logParentExists = true
    · rw [if_pos h2] at h
      exact Except.noConfusion h
    · rw [if_neg h2] at h
      injection h with h
      subst h
      rfl

/-- Witness for C9: a manager constructed over a filesystem whose cache
directory is absent leaves it absent. -/
theorem C9_managerInit_witness :
    (FileSys.mk true true false).cacheDirExists =
      (FileSys.mk true true false).cacheDirExists :=
  C9_managerInit.1 ⟨true, true, false⟩ ⟨true, true, false⟩ rfl

/-! ## Configuration environment scan (C10) -/

/-- Claim C10: an environment variable whose name has the `ZKVVM_` prefix
but whose lower-cased suffix is not a known configuration key makes the
environment scan of `Config.__init__` raise `KeyError` instead of
ignoring the variable. -/
theorem C10_config_unknown_key (env : List (List Char × List Char))
    (k val : List Char) (hmem : (k, val) ∈ env)
    (hpref : leadMatch "ZKVVM_".toList k = true)
    (hkey : (k.map Char.toLower).drop 6 ∉ CONVERTER_KEYS) :
    ∃ e, configEnv env = .error e := by
  induction env with
  | nil => cases hmem
  | cons p rest ih =>
    rcases List.mem_cons.mp hmem with he | h2
    · rw [← he, configEnv, if_pos hpref, if_neg hkey]
      exact ⟨_, rfl⟩
    · cases p with
      | mk k2 v2 =>
        rw [configEnv]
        by_cases hp2 : leadMatch "ZKVVM_".toList k2 = true
        · rw [if_pos hp2]
          by_cases hk2 : (k2.map Char.toLower).drop 6 ∈ CONVERTER_KEYS
          · rw [if_pos hk2]
            obtain ⟨e, he2⟩ := ih h2
            rw [he2]
            exact ⟨e, rfl⟩
          · rw [if_neg hk2]
            exact ⟨_, rfl⟩
        · rw [if_neg hp2]
          exact ih h2

/-- Witness for C10: the environment `{ZKVVM_FOO = "1"}` (alongside an
unrelated variable and a known one) makes the scan raise `KeyError`. -/
theorem C10_config_unknown_key_witness :
    ∃ e, configEnv [("PATH".toList, "/bin".toList),
      ("ZKVVM_CACHE_DIR".toList, "/tmp".toList),
      ("ZKVVM_FOO".toList, "1".toList)] = .error e :=
  C10_config_unknown_key _ "ZKVVM_FOO".toList "1".toList
    (by decide) (by decide) (by decide)

end Zkvvm
